import Mathlib

set_option maxRecDepth 4000

/-!
Verification of the DS_bighw netlist LUT-pairing program (src/main.c).

The program text is modelled as `List Char` (the NUL-terminated C buffer
without its terminator; scanning past the end of the buffer is modelled as
the scan stopping at the end of the list).  Each C helper is embedded as a
Lean function of the same name.  The two cursor loops that are not
structurally recursive (`parse_luts_from_buffer`'s outer scan and its
port-connection loop) take an explicit fuel argument; the program invokes
them with fuel `length + 1`, and the termination theorem shows the result
is independent of the fuel once it exceeds the length of the remaining
input, because every iteration strictly advances the cursor.
-/

/-- C `isspace` in the C locale: space, \t, \n, \v, \f, \r. -/
def isSpaceC (c : Char) : Bool :=
  c == ' ' || c == '\t' || c == '\n' || c == '\x0b' || c == '\x0c' || c == '\r'

/-- C `isdigit` in the C locale. -/
def isDigitC (c : Char) : Bool :=
  decide ('0' ≤ c ∧ c ≤ '9')

/-- C `isalnum` (ASCII letters and digits, C locale). -/
def isAlnumC (c : Char) : Bool :=
  decide (('a' ≤ c ∧ c ≤ 'z') ∨ ('A' ≤ c ∧ c ≤ 'Z')) || isDigitC c

/-- src/main.c `is_ident_char`: alphanumeric, `_` or `$`. -/
def is_ident_char (c : Char) : Bool :=
  isAlnumC c || c == '_' || c == '$'

/-- src/main.c `skip_spaces`: advance the cursor past whitespace. -/
def dropSpaces : List Char → List Char
  | [] => []
  | c :: rest => if isSpaceC c then dropSpaces rest else c :: rest

/-- Maximal run of identifier characters: returns (token, rest). -/
def takeIdent : List Char → List Char × List Char
  | [] => ([], [])
  | c :: rest =>
    if is_ident_char c then
      let r := takeIdent rest
      (c :: r.1, r.2)
    else ([], c :: rest)

/-- Maximal run of non-whitespace characters: returns (token, rest). -/
def takeNonSpace : List Char → List Char × List Char
  | [] => ([], [])
  | c :: rest =>
    if isSpaceC c then ([], c :: rest)
    else
      let r := takeNonSpace rest
      (c :: r.1, r.2)

/-- src/main.c `parse_identifier`: skip whitespace, then read either an
escaped identifier (backslash through the next whitespace, backslash kept)
or a plain identifier (maximal run of identifier characters).  Returns
`none` when no identifier starts here; in that case the C code leaves the
caller's cursor untouched. -/
def parse_identifier (p : List Char) : Option (List Char × List Char) :=
  match dropSpaces p with
  | [] => none
  | c :: cs =>
    if c = '\\' then
      let r := takeNonSpace cs
      some ('\\' :: r.1, r.2)
    else if is_ident_char c then
      let r := takeIdent cs
      some (c :: r.1, r.2)
    else none

/-- src/main.c `starts_with`: does `s` start with the literal `lit`. -/
def starts_with (lit s : List Char) : Bool :=
  match lit, s with
  | [], _ => true
  | _ :: _, [] => false
  | a :: as, b :: bs => if b = a then starts_with as bs else false

/-- src/main.c `is_gtp_lut_cell`: exactly `GTP_LUT<digits>`, excluding the
literal `GTP_LUT6CARRY`. -/
def is_gtp_lut_cell (cell : List Char) : Bool :=
  if cell = "GTP_LUT6CARRY".toList then false
  else if starts_with "GTP_LUT".toList cell then
    match cell.drop 7 with
    | [] => false
    | d :: rest => isDigitC d && rest.all isDigitC
  else false

/-- Trimming of leading and trailing whitespace as done at the top of
src/main.c `lut_add_net_unique`. -/
def trimC (s : List Char) : List Char :=
  (dropSpaces (dropSpaces s).reverse).reverse

/-- One LUT instance: src/main.c `Lut` (its `used` flag is modelled in the
pairing stage as the set of consumed indices). -/
structure Lut where
  inst : List Char
  nets : List (List Char)
deriving DecidableEq, Repr

def defaultLut : Lut := ⟨[], []⟩

/-- src/main.c `lut_add_net_unique`: trim the captured net; drop it if the
trimmed text is empty or already present (exact string equality); otherwise
append it. -/
def lut_add_net_unique (nets : List (List Char)) (net : List Char) : List (List Char) :=
  let t := trimC net
  if t = [] then nets
  else if t ∈ nets then nets
  else nets ++ [t]

/-- The `record` decision of src/main.c lines 271-276: the port name starts
with `I`, every following character is a decimal digit, and there is at
least one such character (`port[1] != '\0'`). -/
def port_record : List Char → Bool
  | [] => false
  | c :: rest => decide (c = 'I') && rest.all isDigitC && !rest.isEmpty

/-- src/main.c `strip_block_comments`, mode `true` while inside `/* ... */`;
every overwritten character becomes a blank, offsets are preserved. -/
def strip_block_go : Bool → List Char → List Char
  | _, [] => []
  | false, '/' :: '*' :: rest => ' ' :: ' ' :: strip_block_go true rest
  | false, c :: rest => c :: strip_block_go false rest
  | true, '*' :: '/' :: rest => ' ' :: ' ' :: strip_block_go false rest
  | true, _ :: rest => ' ' :: strip_block_go true rest

def strip_block_comments (s : List Char) : List Char := strip_block_go false s

/-- src/main.c `strip_line_comments`, mode `true` while blanking to the end
of the current line. -/
def strip_line_go : Bool → List Char → List Char
  | _, [] => []
  | false, '/' :: '/' :: rest => ' ' :: ' ' :: strip_line_go true rest
  | false, c :: rest => c :: strip_line_go false rest
  | true, '\n' :: rest => '\n' :: strip_line_go false rest
  | true, _ :: rest => ' ' :: strip_line_go true rest

def strip_line_comments (s : List Char) : List Char := strip_line_go false s

/-- Predicate for the net-expression capture of src/main.c lines 263-264:
characters up to (not including) the next `)`. -/
def not_close (ch : Char) : Bool := ch ≠ ')'

/-- src/main.c line 266: consume the closing `)` of a connection if present. -/
def drop_close : List Char → List Char
  | ')' :: r => r
  | other => other

/-- Result of one iteration of the port-connection loop body. -/
inductive PortStep where
  | done : List (List Char) → List Char → PortStep
  | next : Nat → List (List Char) → List Char → PortStep
deriving Repr

/-- One iteration of the port-connection loop of src/main.c
`parse_luts_from_buffer` (lines 238-289), including the loop condition
`*p && depth > 0`.  Note the `)` branch decrements `depth` and then
`break`s out of the loop unconditionally.  Where the C code would step the
cursor past the NUL terminator (skip_spaces reaching the end of the buffer
inside the loop), the model ends the loop at the end of the input. -/
def port_step (depth : Nat) (nets : List (List Char)) (p : List Char) : PortStep :=
  if p = [] then .done nets p
  else if depth = 0 then .done nets p
  else
    match dropSpaces p with
    | [] => .done nets []
    | c :: rest =>
      if c = ')' then .done nets rest
      else if c = '(' then .next (depth + 1) nets rest
      else if c ≠ '.' then .next depth nets rest
      else
        match parse_identifier rest with
        | none => .next depth nets rest
        | some (port, p2) =>
          match dropSpaces p2 with
          | [] => .next depth nets []
          | c2 :: p4 =>
            if c2 = '(' then
              let netRaw := p4.takeWhile not_close
              let p6 := drop_close (p4.dropWhile not_close)
              .next depth (if port_record port then lut_add_net_unique nets netRaw else nets) p6
            else .next depth nets (c2 :: p4)

/-- The port-connection loop, iterated with fuel.  Returns the collected
input-net set and the cursor after the loop. -/
def port_loop : Nat → Nat → List (List Char) → List Char → List (List Char) × List Char
  | 0, _, nets, p => (nets, p)
  | fuel + 1, depth, nets, p =>
    match port_step depth nets p with
    | .done nets' p' => (nets', p')
    | .next d' nets' p' => port_loop fuel d' nets' p'

/-- src/main.c lines 291-293: advance to the next `;` or newline, consuming
the `;` when found. -/
def resync : List Char → List Char
  | [] => []
  | c :: rest => if c = ';' then rest else if c = '\n' then c :: rest else resync rest

/-- The outer scan loop of src/main.c `parse_luts_from_buffer`
(lines 204-304), iterated with fuel.  A failed identifier parse resumes one
character past the saved position (`p = save + 1`). -/
def parse_loop : Nat → List Char → List Lut
  | 0, _ => []
  | fuel + 1, p =>
    if p = [] then []
    else
      match parse_identifier p with
      | none => parse_loop fuel (p.drop 1)
      | some (cell, p1) =>
        if is_gtp_lut_cell cell then
          match parse_identifier p1 with
          | none => parse_loop fuel p1
          | some (inst, p2) =>
            match dropSpaces p2 with
            | [] => parse_loop fuel []
            | c :: p4 =>
              if c = '(' then
                { inst := inst, nets := (port_loop fuel 1 [] p4).1 } ::
                  parse_loop fuel (resync (port_loop fuel 1 [] p4).2)
              else parse_loop fuel (c :: p4)
        else parse_loop fuel p1

/-- src/main.c `parse_luts_from_buffer`: strip block then line comments from
a private copy, then run the scan loop (fuel one more than the length of
the input suffices, as proved in the termination theorem). -/
def parse_luts_from_buffer (buf : List Char) : List Lut :=
  let s := strip_line_comments (strip_block_comments buf)
  parse_loop (s.length + 1) s

/-- The inner membership scan of src/main.c `union_unique_count_le6`
(the `strcmp` loop over `a->nets`). -/
def net_mem : List (List Char) → List Char → Bool
  | [], _ => false
  | y :: rest, x => if y = x then true else net_mem rest x

/-- The counting loop of src/main.c `union_unique_count_le6`: the count
starts at `|a.nets|`, each net of `b` absent from `a` increments it, and
the predicate fails as soon as the running count exceeds 6. -/
def union_count_loop (anets : List (List Char)) : List (List Char) → Nat → Bool
  | [], count => decide (count ≤ 6)
  | x :: rest, count =>
    if net_mem anets x then union_count_loop anets rest count
    else if count + 1 > 6 then false
    else union_count_loop anets rest (count + 1)

/-- src/main.c `union_unique_count_le6`. -/
def union_unique_count_le6 (a b : Lut) : Bool :=
  union_count_loop a.nets b.nets a.nets.length

/-- The inner scan of the greedy pairing in src/main.c `run_one`
(lines 387-390): first index `j ≥ j0` (walking the suffix of the LUT list)
that is not consumed and satisfies the union-size predicate. -/
def find_partner (a : Lut) (used : List Nat) : List Lut → Nat → Option Nat
  | [], _ => none
  | b :: rest, j =>
    if j ∈ used then find_partner a used rest (j + 1)
    else if union_unique_count_le6 a b then some j
    else find_partner a used rest (j + 1)

/-- The outer greedy-pairing loop of src/main.c `run_one` (lines 384-398).
The `used` flags of the C struct are modelled as the list of consumed
indices (each pairing event prepends the two indices it marks).  Returns
the emitted pairs and the final consumed list. -/
def pair_loop : List Lut → Nat → List Nat → List (Nat × Nat) × List Nat
  | [], _, used => ([], used)
  | a :: rest, i, used =>
    if i ∈ used then pair_loop rest (i + 1) used
    else
      match find_partner a used rest (i + 1) with
      | some j =>
        ((i, j) :: (pair_loop rest (i + 1) (i :: j :: used)).1,
         (pair_loop rest (i + 1) (i :: j :: used)).2)
      | none => pair_loop rest (i + 1) used

/-- The pair list produced by the greedy pairing, as index pairs into the
extracted LUT list. -/
def greedy_pairs (luts : List Lut) : List (Nat × Nat) := (pair_loop luts 0 []).1

/-- The final consumed-marks list of the greedy pairing. -/
def final_consumed (luts : List Lut) : List Nat := (pair_loop luts 0 []).2

/-- The first-fit selection exactly as worded in the spec (section 4.4):
scanning forward from `i+1` in order, the FIRST index `j` that is not yet
consumed and satisfies the union-size predicate with instance `i`.  This
definition follows the spec's words and is proved equal to the pairing the
code performs. -/
def spec_first_fit (luts : List Lut) (consumed : List Nat) (i : Nat) : Option Nat :=
  (List.range' (i + 1) (luts.length - (i + 1))).find?
    (fun j => !(decide (j ∈ consumed)) &&
      union_unique_count_le6 (luts.getD i defaultLut) (luts.getD j defaultLut))

/-- The greedy pairing exactly as worded in the spec (section 4.4): iterate
the instances in discovery order, skip consumed ones, pair each remaining
one with its first-fit partner (marking both consumed at that moment) or
leave it unpaired forever. -/
def spec_pair_go (luts : List Lut) : Nat → Nat → List Nat → List (Nat × Nat) × List Nat
  | 0, _, consumed => ([], consumed)
  | fuel + 1, i, consumed =>
    if i ∈ consumed then spec_pair_go luts fuel (i + 1) consumed
    else
      match spec_first_fit luts consumed i with
      | some j =>
        ((i, j) :: (spec_pair_go luts fuel (i + 1) (i :: j :: consumed)).1,
         (spec_pair_go luts fuel (i + 1) (i :: j :: consumed)).2)
      | none => spec_pair_go luts fuel (i + 1) consumed

/-- The spec-worded pairing over a whole instance list. -/
def spec_pairs (luts : List Lut) : List (Nat × Nat) :=
  (spec_pair_go luts luts.length 0 []).1

/-- All indices appearing as members of pairs, in emission order. -/
def pairMembers : List (Nat × Nat) → List Nat
  | [] => []
  | ij :: rest => ij.1 :: ij.2 :: pairMembers rest

/-- The per-pair lines of the output report of src/main.c `run_one`
(lines 407-409): `<inst1> <inst2>\n` for each pair. -/
def pair_lines (luts : List Lut) : List (Nat × Nat) → List Char
  | [] => []
  | ij :: rest =>
    (luts.getD ij.1 defaultLut).inst ++ ' ' ::
      ((luts.getD ij.2 defaultLut).inst ++ '\n' :: pair_lines luts rest)

/-- The serialized report of src/main.c `run_one` (lines 406-409): the
decimal pair count, a newline, then one line per pair. -/
def render_report (luts : List Lut) (pairs : List (Nat × Nat)) : List Char :=
  Nat.toDigits 10 pairs.length ++ '\n' :: pair_lines luts pairs

/-- The per-file pipeline of src/main.c `run_one` restricted to its core
(extraction, pairing, report serialization). -/
def run_one_core (buf : List Char) : List Char :=
  let luts := parse_luts_from_buffer buf
  render_report luts (greedy_pairs luts)

/-- The end-to-end scenario input of the spec (three GTP_LUT6 lines). -/
def demo_input : List Char :=
  ("GTP_LUT6 u1 ( .I0(a), .I1(b), .I2(c), .Z(x) );\n" ++
   "GTP_LUT6 u2 ( .I0(c), .I1(d), .Z(y) );\n" ++
   "GTP_LUT6 u3 ( .I0(m), .I1(n), .I2(o), .I3(p), .I4(q), .I5(r), .Z(z) );\n").toList

/-! Cursor-progress lemmas -/

theorem dropSpaces_length (l : List Char) : (dropSpaces l).length ≤ l.length := by
  induction l with
  | nil => simp [dropSpaces]
  | cons c rest ih =>
    simp only [dropSpaces]
    split
    · exact Nat.le_succ_of_le ih
    · simp

theorem takeIdent_rest_length (l : List Char) : (takeIdent l).2.length ≤ l.length := by
  induction l with
  | nil => simp [takeIdent]
  | cons c rest ih =>
    simp only [takeIdent]
    split
    · exact Nat.le_succ_of_le ih
    · simp

theorem takeNonSpace_rest_length (l : List Char) : (takeNonSpace l).2.length ≤ l.length := by
  induction l with
  | nil => simp [takeNonSpace]
  | cons c rest ih =>
    simp only [takeNonSpace]
    split
    · simp
    · exact Nat.le_succ_of_le ih

theorem dropWhile_length_le (q : Char → Bool) (l : List Char) :
    (l.dropWhile q).length ≤ l.length := by
  induction l with
  | nil => simp
  | cons c rest ih =>
    simp only [List.dropWhile_cons]
    split
    · exact Nat.le_succ_of_le ih
    · simp

theorem dropSpaces_eq_cons_length {p cs : List Char} {c : Char}
    (h : dropSpaces p = c :: cs) : cs.length < p.length := by
  have h1 := dropSpaces_length p
  rw [h] at h1
  exact Nat.lt_of_lt_of_le (Nat.lt_succ_self _) h1

theorem resync_length (l : List Char) : (resync l).length ≤ l.length := by
  induction l with
  | nil => simp [resync]
  | cons c rest ih =>
    simp only [resync]
    split
    · simp
    · split
      · simp
      · exact Nat.le_succ_of_le ih

theorem drop_close_length (l : List Char) : (drop_close l).length ≤ l.length := by
  unfold drop_close
  split
  · simp
  · exact Nat.le_refl _

theorem parse_identifier_some {p tok rest : List Char}
    (h : parse_identifier p = some (tok, rest)) :
    tok ≠ [] ∧ rest.length < p.length := by
  unfold parse_identifier at h
  split at h
  · exact absurd h (by simp)
  next c cs hq =>
    have hcs : cs.length < p.length := dropSpaces_eq_cons_length hq
    split at h
    · rw [Option.some.injEq, Prod.mk.injEq] at h
      obtain ⟨ht, hr⟩ := h
      subst ht; subst hr
      exact ⟨by simp, Nat.lt_of_le_of_lt (takeNonSpace_rest_length cs) hcs⟩
    · split at h
      · rw [Option.some.injEq, Prod.mk.injEq] at h
        obtain ⟨ht, hr⟩ := h
        subst ht; subst hr
        exact ⟨by simp, Nat.lt_of_le_of_lt (takeIdent_rest_length cs) hcs⟩
      · exact absurd h (by simp)

theorem port_step_next_length {d : Nat} {nets : List (List Char)} {p : List Char}
    {d' : Nat} {nets' : List (List Char)} {p' : List Char}
    (h : port_step d nets p = .next d' nets' p') : p'.length < p.length := by
  unfold port_step at h
  split at h
  · exact absurd h (by simp)
  split at h
  · exact absurd h (by simp)
  next hpnil _ =>
  have hppos : 0 < p.length := List.length_pos.mpr hpnil
  split at h
  · exact absurd h (by simp)
  next c rest hdp =>
  have hrest : rest.length < p.length := dropSpaces_eq_cons_length hdp
  split at h
  · exact absurd h (by simp)
  split at h
  · cases h; exact hrest
  split at h
  · cases h; exact hrest
  split at h
  · cases h; exact hrest
  next port p2 hpi =>
  have hp2 : p2.length < rest.length := (parse_identifier_some hpi).2
  split at h
  · cases h; exact hppos
  next c2 p4 hdp2 =>
  have hp4 : p4.length < p2.length := dropSpaces_eq_cons_length hdp2
  split at h
  · cases h
    have h5 : (p4.dropWhile not_close).length ≤ p4.length :=
      dropWhile_length_le not_close p4
    have h6 := drop_close_length (p4.dropWhile not_close)
    omega
  · cases h
    have : (c2 :: p4).length ≤ p2.length := by
      rw [← hdp2]; exact dropSpaces_length p2
    omega

theorem port_step_done_length {d : Nat} {nets : List (List Char)} {p : List Char}
    {nets' : List (List Char)} {p' : List Char}
    (h : port_step d nets p = .done nets' p') : p'.length ≤ p.length := by
  unfold port_step at h
  split at h
  · cases h; exact Nat.le_refl _
  split at h
  · cases h; exact Nat.le_refl _
  split at h
  · cases h; simp
  next c rest hdp =>
  have hrest : rest.length < p.length := dropSpaces_eq_cons_length hdp
  split at h
  · cases h; exact Nat.le_of_lt hrest
  split at h
  · exact absurd h (by simp)
  split at h
  · exact absurd h (by simp)
  split at h
  · exact absurd h (by simp)
  split at h
  · exact absurd h (by simp)
  split at h
  · exact absurd h (by simp)
  · exact absurd h (by simp)

theorem port_step_done_nets {d : Nat} {nets : List (List Char)} {p : List Char}
    {nets' : List (List Char)} {p' : List Char}
    (h : port_step d nets p = .done nets' p') : nets' = nets := by
  unfold port_step at h
  split at h
  · cases h; rfl
  split at h
  · cases h; rfl
  split at h
  · cases h; rfl
  split at h
  · cases h; rfl
  split at h
  · exact absurd h (by simp)
  split at h
  · exact absurd h (by simp)
  split at h
  · exact absurd h (by simp)
  split at h
  · exact absurd h (by simp)
  split at h
  · exact absurd h (by simp)
  · exact absurd h (by simp)

theorem port_step_next_nets {d : Nat} {nets : List (List Char)} {p : List Char}
    {d' : Nat} {nets' : List (List Char)} {p' : List Char}
    (h : port_step d nets p = .next d' nets' p') :
    nets' = nets ∨ ∃ r, nets' = lut_add_net_unique nets r := by
  unfold port_step at h
  split at h
  · exact absurd h (by simp)
  split at h
  · exact absurd h (by simp)
  split at h
  · exact absurd h (by simp)
  split at h
  · exact absurd h (by simp)
  split at h
  · cases h; exact Or.inl rfl
  split at h
  · cases h; exact Or.inl rfl
  split at h
  · cases h; exact Or.inl rfl
  split at h
  · cases h; exact Or.inl rfl
  split at h
  · cases h
    split
    · exact Or.inr ⟨_, rfl⟩
    · exact Or.inl rfl
  · cases h; exact Or.inl rfl

theorem port_loop_length (fuel : Nat) :
    ∀ (d : Nat) (nets : List (List Char)) (p : List Char),
      (port_loop fuel d nets p).2.length ≤ p.length := by
  induction fuel with
  | zero => intro d nets p; exact Nat.le_refl _
  | succ fuel ih =>
    intro d nets p
    simp only [port_loop]
    cases hs : port_step d nets p with
    | done nets' p' => simpa using port_step_done_length hs
    | next d' nets' p' =>
      simp only []
      exact Nat.le_of_lt (Nat.lt_of_le_of_lt (ih d' nets' p') (port_step_next_length hs))

theorem port_loop_fuel_eq :
    ∀ (f1 f2 d : Nat) (nets : List (List Char)) (p : List Char),
      p.length < f1 → p.length < f2 →
      port_loop f1 d nets p = port_loop f2 d nets p := by
  intro f1
  induction f1 with
  | zero => intro f2 d nets p h1; exact absurd h1 (Nat.not_lt_zero _)
  | succ f1 ih =>
    intro f2 d nets p h1 h2
    cases f2 with
    | zero => exact absurd h2 (Nat.not_lt_zero _)
    | succ f2 =>
      simp only [port_loop]
      cases hs : port_step d nets p with
      | done nets' p' => rfl
      | next d' nets' p' =>
        have hlt := port_step_next_length hs
        exact ih f2 d' nets' p'
          (Nat.lt_of_lt_of_le hlt (Nat.lt_succ_iff.mp h1))
          (Nat.lt_of_lt_of_le hlt (Nat.lt_succ_iff.mp h2))

theorem parse_loop_fuel_eq :
    ∀ (f1 f2 : Nat) (p : List Char), p.length < f1 → p.length < f2 →
      parse_loop f1 p = parse_loop f2 p := by
  intro f1
  induction f1 with
  | zero => intro f2 p h1 _; exact absurd h1 (Nat.not_lt_zero _)
  | succ f1 ih =>
    intro f2 p h1 h2
    cases f2 with
    | zero => exact absurd h2 (Nat.not_lt_zero _)
    | succ f2 =>
      have hf1 : p.length ≤ f1 := Nat.lt_succ_iff.mp h1
      have hf2 : p.length ≤ f2 := Nat.lt_succ_iff.mp h2
      by_cases hp : p = []
      · subst hp; simp [parse_loop]
      · have hppos : 0 < p.length := List.length_pos.mpr hp
        simp only [parse_loop, if_neg hp]
        cases hpi : parse_identifier p with
        | none =>
          simp only []
          have hd : (p.drop 1).length < p.length := by
            rw [List.length_drop]; omega
          exact ih f2 (p.drop 1) (by omega) (by omega)
        | some cp =>
          obtain ⟨cell, p1⟩ := cp
          have hp1 : p1.length < p.length := (parse_identifier_some hpi).2
          simp only []
          by_cases hcell : is_gtp_lut_cell cell = true
          · simp only [hcell, if_true]
            cases hpi2 : parse_identifier p1 with
            | none => exact ih f2 p1 (by omega) (by omega)
            | some ip =>
              obtain ⟨inst, p2⟩ := ip
              have hp2 : p2.length < p1.length := (parse_identifier_some hpi2).2
              simp only []
              cases hds : dropSpaces p2 with
              | nil =>
                exact ih f2 [] (by simp only [List.length_nil]; omega)
                  (by simp only [List.length_nil]; omega)
              | cons c p4 =>
                have hp4 : p4.length < p2.length := dropSpaces_eq_cons_length hds
                have hcp4 : (c :: p4).length ≤ p2.length := by
                  rw [← hds]; exact dropSpaces_length p2
                simp only [List.length_cons] at hcp4
                by_cases hc : c = '('
                · subst hc
                  simp only [if_pos rfl]
                  have hport : port_loop f1 1 [] p4 = port_loop f2 1 [] p4 :=
                    port_loop_fuel_eq f1 f2 1 [] p4 (by omega) (by omega)
                  rw [← hport]
                  have hr2 : (port_loop f1 1 [] p4).2.length ≤ p4.length :=
                    port_loop_length f1 1 [] p4
                  have hres : (resync (port_loop f1 1 [] p4).2).length ≤
                      (port_loop f1 1 [] p4).2.length := resync_length _
                  rw [ih f2 (resync (port_loop f1 1 [] p4).2) (by omega) (by omega)]
                  simp
                · simp only [if_neg hc]
                  exact ih f2 (c :: p4) (by simp; omega) (by simp; omega)
          · simp only [hcell, if_false]
            exact ih f2 p1 (by omega) (by omega)

/-! Trimming -/

theorem dropSpaces_head_false {l cs : List Char} {c : Char}
    (h : dropSpaces l = c :: cs) : isSpaceC c = false := by
  induction l with
  | nil => simp [dropSpaces] at h
  | cons a rest ih =>
    simp only [dropSpaces] at h
    split at h
    · exact ih h
    next hs =>
      cases h
      simpa using hs

theorem dropSpaces_cons_of_false {c : Char} {rest : List Char}
    (h : isSpaceC c = false) : dropSpaces (c :: rest) = c :: rest := by
  simp [dropSpaces, h]

theorem dropSpaces_suffix (l : List Char) : ∃ pre, pre ++ dropSpaces l = l := by
  induction l with
  | nil => exact ⟨[], rfl⟩
  | cons c rest ih =>
    by_cases hs : isSpaceC c
    · obtain ⟨pre, hp⟩ := ih
      exact ⟨c :: pre, by simp [dropSpaces, hs, hp]⟩
    · exact ⟨[], by simp [dropSpaces, hs]⟩

theorem getLast?_cons_ne_nil {a : Char} {l : List Char} (h : l ≠ []) :
    (a :: l).getLast? = l.getLast? := by
  cases l with
  | nil => exact absurd rfl h
  | cons b t => exact List.getLast?_cons_cons ..

theorem getLast?_append_ne (pre : List Char) {d : List Char} (h : d ≠ []) :
    (pre ++ d).getLast? = d.getLast? := by
  induction pre with
  | nil => rfl
  | cons a pre ih =>
    have hne : pre ++ d ≠ [] := by
      intro hx
      exact h (List.append_eq_nil.mp hx).2
    rw [List.cons_append, getLast?_cons_ne_nil hne, ih]

theorem trimC_eq_self {t : List Char} (h1 : dropSpaces t = t)
    (h2 : dropSpaces t.reverse = t.reverse) : trimC t = t := by
  unfold trimC
  rw [h1, h2, List.reverse_reverse]

theorem trimC_trimC (s : List Char) : trimC (trimC s) = trimC s := by
  cases hw : dropSpaces (dropSpaces s).reverse with
  | nil =>
    have ht : trimC s = [] := by unfold trimC; rw [hw]; rfl
    rw [ht]; rfl
  | cons c w' =>
    have ht : trimC s = (c :: w').reverse := by unfold trimC; rw [hw]
    have hc : isSpaceC c = false := dropSpaces_head_false hw
    have h2 : dropSpaces (trimC s).reverse = (trimC s).reverse := by
      rw [ht, List.reverse_reverse]
      exact dropSpaces_cons_of_false hc
    obtain ⟨pre, hpre⟩ := dropSpaces_suffix (dropSpaces s).reverse
    rw [hw] at hpre
    have hwne : c :: w' ≠ ([] : List Char) := by simp
    have hurev_ne : (dropSpaces s).reverse ≠ [] := by
      rw [← hpre]; simp
    have hu_ne : dropSpaces s ≠ [] := by
      intro hx; rw [hx] at hurev_ne; exact hurev_ne rfl
    obtain ⟨d, u', hu⟩ := List.exists_cons_of_ne_nil hu_ne
    have hd : isSpaceC d = false := dropSpaces_head_false hu
    have hthis := getLast?_append_ne pre hwne
    rw [hpre, List.getLast?_reverse, hu] at hthis
    have hhead : (trimC s).head? = some d := by
      rw [ht, List.head?_reverse, ← hthis]
      simp
    have h1 : dropSpaces (trimC s) = trimC s := by
      cases hts : trimC s with
      | nil => rfl
      | cons e t' =>
        rw [hts] at hhead
        have hed : e = d := by simpa using hhead
        subst hed
        exact dropSpaces_cons_of_false hd
    exact trimC_eq_self h1 h2

/-! The nets of every extracted instance are duplicate-free and trimmed -/

def good_nets (nets : List (List Char)) : Prop :=
  nets.Nodup ∧ ∀ x ∈ nets, trimC x = x

theorem lut_add_good {nets : List (List Char)} {net : List Char}
    (h : good_nets nets) : good_nets (lut_add_net_unique nets net) := by
  simp only [lut_add_net_unique]
  by_cases h0 : trimC net = []
  · simp only [h0, if_pos rfl]; exact h
  · simp only [if_neg h0]
    by_cases hmem : trimC net ∈ nets
    · simp only [hmem, if_pos rfl]; exact h
    · simp only [hmem, if_neg hmem, if_false]
      constructor
      · rw [List.nodup_append]
        refine ⟨h.1, List.nodup_singleton _, ?_⟩
        intro x hx hy
        have : x = trimC net := by simpa using hy
        subst this
        exact hmem hx
      · intro x hx
        rcases List.mem_append.mp hx with hx | hx
        · exact h.2 x hx
        · have : x = trimC net := by simpa using hx
          subst this
          exact trimC_trimC net

theorem port_loop_good (fuel : Nat) :
    ∀ (d : Nat) (nets : List (List Char)) (p : List Char),
      good_nets nets → good_nets (port_loop fuel d nets p).1 := by
  induction fuel with
  | zero => intro d nets p h; exact h
  | succ fuel ih =>
    intro d nets p h
    simp only [port_loop]
    cases hs : port_step d nets p with
    | done nets' p' =>
      rw [port_step_done_nets hs]
      exact h
    | next d' nets' p' =>
      apply ih
      rcases port_step_next_nets hs with h' | ⟨r, h'⟩
      · rw [h']; exact h
      · rw [h']; exact lut_add_good h

theorem parse_loop_good (fuel : Nat) :
    ∀ (p : List Char) (l : Lut), l ∈ parse_loop fuel p → good_nets l.nets := by
  induction fuel with
  | zero => intro p l h; simp [parse_loop] at h
  | succ fuel ih =>
    intro p l h
    rw [parse_loop] at h
    split at h
    · simp at h
    · split at h
      · exact ih _ l h
      · split at h
        · split at h
          · exact ih _ l h
          · split at h
            · exact ih _ l h
            · split at h
              · rcases List.mem_cons.mp h with h | h
                · subst h
                  exact port_loop_good fuel 1 [] _ ⟨List.nodup_nil, by simp⟩
                · exact ih _ l h
              · exact ih _ l h
        · exact ih _ l h

theorem parse_luts_good (buf : List Char) (l : Lut)
    (h : l ∈ parse_luts_from_buffer buf) : good_nets l.nets := by
  exact parse_loop_good _ _ l h

/-! Pairing -/

theorem drop_eq_cons_getD :
    ∀ {luts : List Lut} {i : Nat} {a : Lut} {r : List Lut}, luts.drop i = a :: r →
      luts.getD i defaultLut = a ∧ luts.drop (i + 1) = r := by
  intro luts
  induction luts with
  | nil => intro i a r h; simp at h
  | cons x xs ih =>
    intro i a r h
    cases i with
    | zero =>
      simp only [List.drop_zero] at h
      cases h
      exact ⟨rfl, by simp⟩
    | succ n =>
      simp only [List.drop_succ_cons] at h
      obtain ⟨h1, h2⟩ := ih h
      exact ⟨by simpa using h1, by simpa using h2⟩

theorem find_partner_some {a : Lut} {used : List Nat} :
    ∀ {rest : List Lut} {j0 j : Nat}, find_partner a used rest j0 = some j →
      j0 ≤ j ∧ j ∉ used := by
  intro rest
  induction rest with
  | nil => intro j0 j h; simp [find_partner] at h
  | cons b rest ih =>
    intro j0 j h
    rw [find_partner] at h
    by_cases hju : j0 ∈ used
    · rw [if_pos hju] at h
      obtain ⟨h1, h2⟩ := ih h
      exact ⟨by omega, h2⟩
    · rw [if_neg hju] at h
      by_cases hun : union_unique_count_le6 a b = true
      · rw [if_pos hun] at h
        cases h
        exact ⟨Nat.le_refl _, hju⟩
      · rw [if_neg hun] at h
        obtain ⟨h1, h2⟩ := ih h
        exact ⟨by omega, h2⟩

theorem find_partner_eq_spec {a : Lut} {used : List Nat} {luts : List Lut} :
    ∀ {rest : List Lut} {j0 : Nat}, rest = luts.drop j0 →
      find_partner a used rest j0 =
        (List.range' j0 rest.length).find?
          (fun j => !(decide (j ∈ used)) &&
            union_unique_count_le6 a (luts.getD j defaultLut)) := by
  intro rest
  induction rest with
  | nil => intro j0 h; simp [find_partner]
  | cons b rest ih =>
    intro j0 h
    obtain ⟨hb, hdrop⟩ := drop_eq_cons_getD h.symm
    rw [find_partner]
    simp only [List.length_cons, List.range'_succ]
    by_cases hju : j0 ∈ used
    · rw [if_pos hju]
      rw [List.find?_cons_of_neg _ (by simp [hju])]
      exact ih hdrop.symm
    · rw [if_neg hju]
      by_cases hun : union_unique_count_le6 a b = true
      · rw [if_pos hun]
        rw [List.find?_cons_of_pos _ (by simp only [hb]; simp [hju, hun])]
      · rw [if_neg hun]
        rw [List.find?_cons_of_neg _ (by simp only [hb]; simp [hju]; simpa using hun)]
        exact ih hdrop.symm

theorem pair_loop_eq_spec {luts : List Lut} :
    ∀ {rest : List Lut} {i : Nat} {used : List Nat}, rest = luts.drop i →
      pair_loop rest i used = spec_pair_go luts rest.length i used := by
  intro rest
  induction rest with
  | nil => intro i used _; simp [pair_loop, spec_pair_go]
  | cons a rest ih =>
    intro i used h
    obtain ⟨ha, hdrop⟩ := drop_eq_cons_getD h.symm
    rw [pair_loop]
    simp only [List.length_cons]
    rw [spec_pair_go]
    have hff : find_partner a used rest (i + 1) = spec_first_fit luts used i := by
      unfold spec_first_fit
      have hlen : luts.length - (i + 1) = rest.length := by
        have hl := congrArg List.length hdrop
        rw [List.length_drop] at hl
        omega
      rw [hlen, find_partner_eq_spec hdrop.symm, ha]
    by_cases hiu : i ∈ used
    · rw [if_pos hiu, if_pos hiu]
      exact ih hdrop.symm
    · rw [if_neg hiu, if_neg hiu, ← hff]
      cases hfp : find_partner a used rest (i + 1) with
      | none => exact ih hdrop.symm
      | some j =>
        simp only []
        rw [ih hdrop.symm]

theorem pair_loop_fst_ge :
    ∀ (rest : List Lut) (i : Nat) (used : List Nat) (pr : Nat × Nat),
      pr ∈ (pair_loop rest i used).1 → i ≤ pr.1 := by
  intro rest
  induction rest with
  | nil => intro i used pr h; simp [pair_loop] at h
  | cons a rest ih =>
    intro i used pr h
    rw [pair_loop] at h
    by_cases hiu : i ∈ used
    · rw [if_pos hiu] at h
      exact Nat.le_of_succ_le (ih (i + 1) used pr h)
    · rw [if_neg hiu] at h
      cases hfp : find_partner a used rest (i + 1) with
      | none =>
        rw [hfp] at h
        exact Nat.le_of_succ_le (ih _ _ pr h)
      | some j =>
        simp only [hfp] at h
        rcases List.mem_cons.mp h with h | h
        · subst h; exact Nat.le_refl _
        · exact Nat.le_of_succ_le (ih _ _ pr h)

theorem pair_loop_pairwise :
    ∀ (rest : List Lut) (i : Nat) (used : List Nat),
      List.Pairwise (fun x y => x.1 < y.1) (pair_loop rest i used).1 := by
  intro rest
  induction rest with
  | nil => intro i used; simp [pair_loop]
  | cons a rest ih =>
    intro i used
    rw [pair_loop]
    by_cases hiu : i ∈ used
    · rw [if_pos hiu]; exact ih (i + 1) used
    · rw [if_neg hiu]
      cases hfp : find_partner a used rest (i + 1) with
      | none => exact ih _ _
      | some j =>
        simp only [hfp]
        refine List.pairwise_cons.mpr ⟨?_, ih _ _⟩
        intro pr hpr
        exact Nat.lt_of_succ_le (pair_loop_fst_ge rest (i + 1) (i :: j :: used) pr hpr)

theorem pair_loop_invariant :
    ∀ (rest : List Lut) (i : Nat) (used : List Nat), used.Nodup →
      (pair_loop rest i used).2.Nodup ∧
      (pairMembers (pair_loop rest i used).1).Nodup ∧
      (∀ k ∈ pairMembers (pair_loop rest i used).1, k ∉ used) ∧
      (∀ k, k ∈ (pair_loop rest i used).2 ↔
        k ∈ used ∨ k ∈ pairMembers (pair_loop rest i used).1) := by
  intro rest
  induction rest with
  | nil =>
    intro i used hnd
    simp [pair_loop, pairMembers, hnd]
  | cons a rest ih =>
    intro i used hnd
    rw [pair_loop]
    by_cases hiu : i ∈ used
    · rw [if_pos hiu]; exact ih (i + 1) used hnd
    · rw [if_neg hiu]
      cases hfp : find_partner a used rest (i + 1) with
      | none => exact ih _ _ hnd
      | some j =>
        simp only [hfp]
        obtain ⟨hij, hjU⟩ := find_partner_some hfp
        have hij' : i ≠ j := by omega
        have hnd' : (i :: j :: used).Nodup := by
          refine List.nodup_cons.mpr ⟨?_, List.nodup_cons.mpr ⟨hjU, hnd⟩⟩
          intro hmem
          rcases List.mem_cons.mp hmem with hx | hx
          · exact hij' hx
          · exact hiu hx
        obtain ⟨u_nd, m_nd, m_disj, m_iff⟩ := ih (i + 1) (i :: j :: used) hnd'
        refine ⟨u_nd, ?_, ?_, ?_⟩
        · simp only [pairMembers]
          refine List.nodup_cons.mpr ⟨?_, List.nodup_cons.mpr ⟨?_, m_nd⟩⟩
          · intro hmem
            rcases List.mem_cons.mp hmem with hx | hx
            · exact hij' hx
            · exact (m_disj i hx) (by simp)
          · intro hmem
            exact (m_disj j hmem) (by simp)
        · simp only [pairMembers]
          intro k hk
          rcases List.mem_cons.mp hk with hx | hk
          · subst hx; exact hiu
          rcases List.mem_cons.mp hk with hx | hk
          · subst hx; exact hjU
          · intro hku
            exact (m_disj k hk) (by simp [hku])
        · intro k
          rw [m_iff k]
          simp only [pairMembers, List.mem_cons]
          tauto

/-! The union-size predicate -/

theorem net_mem_iff (l : List (List Char)) (x : List Char) :
    net_mem l x = true ↔ x ∈ l := by
  induction l with
  | nil => simp [net_mem]
  | cons y rest ih =>
    rw [net_mem]
    by_cases hy : y = x
    · subst hy; simp
    · rw [if_neg hy, ih, List.mem_cons]
      constructor
      · exact fun h => Or.inr h
      · intro h
        rcases h with h | h
        · exact absurd h.symm hy
        · exact h

theorem union_count_loop_eq (anets : List (List Char)) :
    ∀ (bnets : List (List Char)) (count : Nat),
      union_count_loop anets bnets count =
        decide (count + (bnets.filter (fun x => !net_mem anets x)).length ≤ 6) := by
  intro bnets
  induction bnets with
  | nil => intro count; simp [union_count_loop]
  | cons x rest ih =>
    intro count
    rw [union_count_loop]
    by_cases hx : net_mem anets x = true
    · rw [if_pos hx, ih]
      rw [decide_eq_decide]
      simp [List.filter_cons, hx]
    · have hx' : net_mem anets x = false := by simpa using hx
      rw [if_neg (by simp [hx'])]
      by_cases hc : count + 1 > 6
      · rw [if_pos hc]
        rw [eq_comm, decide_eq_false_iff_not]
        simp [List.filter_cons, hx']
        omega
      · rw [if_neg hc, ih]
        rw [decide_eq_decide]
        simp [List.filter_cons, hx']
        omega

theorem union_le6_iff {a b : Lut} (ha : a.nets.Nodup) (hb : b.nets.Nodup) :
    union_unique_count_le6 a b = true ↔ (a.nets ++ b.nets).toFinset.card ≤ 6 := by
  rw [union_unique_count_le6, union_count_loop_eq, decide_eq_true_eq]
  have hfc : b.nets.filter (fun x => !net_mem a.nets x) =
      b.nets.filter (fun x => decide (x ∉ a.nets)) := by
    apply List.filter_congr
    intro x _
    by_cases hm : x ∈ a.nets
    · simp [hm, (net_mem_iff a.nets x).mpr hm]
    · have : net_mem a.nets x = false := by
        rw [← Bool.not_eq_true, net_mem_iff]
        exact hm
      simp [hm, this]
  have hcard : a.nets.length + (b.nets.filter (fun x => !net_mem a.nets x)).length =
      (a.nets ++ b.nets).toFinset.card := by
    rw [hfc]
    have h1 : (b.nets.filter (fun x => decide (x ∉ a.nets))).length =
        (b.nets.toFinset \ a.nets.toFinset).card := by
      have hnd : (b.nets.filter (fun x => decide (x ∉ a.nets))).Nodup := hb.filter _
      rw [← List.toFinset_card_of_nodup hnd, List.toFinset_filter]
      congr 1
      rw [Finset.sdiff_eq_filter]
      apply Finset.filter_congr
      intro x _
      simp
    have h2 : a.nets.length = a.nets.toFinset.card :=
      (List.toFinset_card_of_nodup ha).symm
    rw [h1, h2, List.toFinset_append]
    have h3 := Finset.card_sdiff_add_card b.nets.toFinset a.nets.toFinset
    rw [Finset.union_comm] at h3
    omega
  omega

theorem getD_mem : ∀ {luts : List Lut} {n : Nat}, n < luts.length →
    luts.getD n defaultLut ∈ luts := by
  intro luts
  induction luts with
  | nil => intro n h; simp at h
  | cons x xs ih =>
    intro n h
    cases n with
    | zero => simp
    | succ m =>
      rw [List.getD_cons_succ]
      exact List.mem_cons_of_mem _ (ih (by simpa using h))

theorem spec_pair_pred {luts : List Lut} :
    ∀ (fuel i : Nat) (consumed : List Nat) (pr : Nat × Nat),
      pr ∈ (spec_pair_go luts fuel i consumed).1 →
      union_unique_count_le6 (luts.getD pr.1 defaultLut) (luts.getD pr.2 defaultLut) = true ∧
      pr.1 < pr.2 ∧ pr.2 < luts.length := by
  intro fuel
  induction fuel with
  | zero => intro i c pr h; simp [spec_pair_go] at h
  | succ fuel ih =>
    intro i c pr h
    rw [spec_pair_go] at h
    by_cases hic : i ∈ c
    · rw [if_pos hic] at h; exact ih _ _ pr h
    · rw [if_neg hic] at h
      cases hsf : spec_first_fit luts c i with
      | none => rw [hsf] at h; exact ih _ _ pr h
      | some j =>
        simp only [hsf] at h
        rcases List.mem_cons.mp h with hx | hx
        · subst hx
          have hp := List.find?_some hsf

          have hmem := List.mem_of_find?_eq_some hsf
          rw [List.mem_range'_1] at hmem
          obtain ⟨hj1, hj2⟩ := hmem

          refine ⟨?_, by omega, by omega⟩
          simp only [Bool.and_eq_true] at hp
          exact hp.2
        · exact ih _ _ pr hx

/-! The cell-name and port-filter predicates -/

theorem starts_with_iff : ∀ (lit s : List Char),
    starts_with lit s = true ↔ ∃ t, s = lit ++ t := by
  intro lit
  induction lit with
  | nil => intro s; simp [starts_with]
  | cons a as ih =>
    intro s
    cases s with
    | nil =>
      rw [starts_with]
      simp
    | cons b bs =>
      rw [starts_with]
      by_cases hb : b = a
      · subst hb
        rw [if_pos rfl, ih]
        constructor
        · rintro ⟨t, ht⟩
          exact ⟨t, by rw [ht, List.cons_append]⟩
        · rintro ⟨t, ht⟩
          rw [List.cons_append] at ht
          injection ht with _ h2
          exact ⟨t, h2⟩
      · rw [if_neg hb]
        constructor
        · intro h; exact absurd h (by simp)
        · rintro ⟨t, ht⟩
          rw [List.cons_append] at ht
          injection ht with h1 _
          exact absurd h1 hb

theorem port_record_iff (port : List Char) :
    port_record port = true ↔
      ∃ ds : List Char, port = 'I' :: ds ∧ ds ≠ [] ∧ ds.all isDigitC = true := by
  cases port with
  | nil => simp [port_record]
  | cons c rest =>
    rw [port_record]
    constructor
    · intro h
      simp only [Bool.and_eq_true, decide_eq_true_eq, Bool.not_eq_true'] at h
      obtain ⟨⟨hc, hall⟩, hne⟩ := h
      subst hc
      refine ⟨rest, rfl, ?_, hall⟩
      intro hx
      subst hx
      simp at hne
    · rintro ⟨ds, hds, hne, hall⟩
      injection hds with h1 h2
      subst h1; subst h2
      have : rest.isEmpty = false := by
        cases rest with
        | nil => exact absurd rfl hne
        | cons _ _ => rfl
      simp [hall, this]

/-! Claims -/

/-- C1: for the three-line input, extraction produces exactly instances
u1 with inputs {a,b,c}, u2 with {c,d}, u3 with {m,n,o,p,q,r} in order;
pairing produces exactly the single pair (u1,u2) with u3 unpaired; and the
serialized report is the pair count 1 followed by the line `u1 u2`. -/
theorem c1_end_to_end :
    parse_luts_from_buffer demo_input =
      [⟨['u', '1'], [['a'], ['b'], ['c']]⟩,
       ⟨['u', '2'], [['c'], ['d']]⟩,
       ⟨['u', '3'], [['m'], ['n'], ['o'], ['p'], ['q'], ['r']]⟩] ∧
    greedy_pairs (parse_luts_from_buffer demo_input) = [(0, 1)] ∧
    run_one_core demo_input = "1\nu1 u2\n".toList := by
  refine ⟨by decide, by decide, by decide⟩

/-- C2: the pairing the code performs equals the spec-worded first-fit
greedy pairing (iterate instances in discovery order, skip consumed ones,
select the FIRST unconsumed `j` after `i` satisfying the union-size
predicate, mark both consumed, never retry an unpaired instance), and the
emitted pairs are ordered by the discovery order of their first elements. -/
theorem c2_first_fit_greedy (luts : List Lut) :
    greedy_pairs luts = spec_pairs luts ∧
    List.Pairwise (fun x y => x.1 < y.1) (greedy_pairs luts) := by
  constructor
  · unfold greedy_pairs spec_pairs
    rw [@pair_loop_eq_spec luts luts 0 [] (by simp)]
  · exact pair_loop_pairwise luts 0 []

/-- C3: the short-circuiting union counter returns true exactly when the
number of distinct net names in the union of the two input sets is at most
6 (for duplicate-free input sets, as extraction produces), and every pair
the pairing emits satisfies that bound. -/
theorem c3_union_size :
    (∀ a b : Lut, a.nets.Nodup → b.nets.Nodup →
      (union_unique_count_le6 a b = true ↔ (a.nets ++ b.nets).toFinset.card ≤ 6)) ∧
    (∀ luts : List Lut, (∀ l ∈ luts, l.nets.Nodup) →
      ∀ pr ∈ greedy_pairs luts,
        ((luts.getD pr.1 defaultLut).nets ++
          (luts.getD pr.2 defaultLut).nets).toFinset.card ≤ 6) := by
  constructor
  · intro a b ha hb
    exact union_le6_iff ha hb
  · intro luts hnd pr hpr
    have heq : greedy_pairs luts = spec_pairs luts := by
      unfold greedy_pairs spec_pairs
      rw [@pair_loop_eq_spec luts luts 0 [] (by simp)]
    rw [heq] at hpr
    obtain ⟨hu, hlt, hlen⟩ := spec_pair_pred luts.length 0 [] pr hpr
    have h1 : pr.1 < luts.length := by omega
    have ha := hnd _ (getD_mem h1)
    have hb := hnd _ (getD_mem hlen)
    exact (union_le6_iff ha hb).mp hu

theorem c3_union_size_witness :
    (union_unique_count_le6 ⟨['u'], [['a']]⟩ ⟨['v'], [['b']]⟩ = true ↔
      ((⟨['u'], [['a']]⟩ : Lut).nets ++ (⟨['v'], [['b']]⟩ : Lut).nets).toFinset.card ≤ 6) ∧
    ((([⟨['u'], [['a']]⟩, ⟨['v'], [['b']]⟩] : List Lut).getD 0 defaultLut).nets ++
      (([⟨['u'], [['a']]⟩, ⟨['v'], [['b']]⟩] : List Lut).getD 1 defaultLut).nets).toFinset.card ≤ 6 :=
  ⟨c3_union_size.1 ⟨['u'], [['a']]⟩ ⟨['v'], [['b']]⟩ (by decide) (by decide),
   c3_union_size.2 [⟨['u'], [['a']]⟩, ⟨['v'], [['b']]⟩] (by decide) (0, 1) (by decide)⟩

/-- C4: an identifier qualifies as a cell name iff it is the literal
`GTP_LUT` followed by one or more decimal digits and nothing else and it is
not exactly `GTP_LUT6CARRY`; in particular `GTP_LUT6` is accepted while
`GTP_LUT6CARRY`, `GTP_LUTX` and `GTP_LUT` are rejected. -/
theorem c4_cell_name :
    (∀ cell : List Char, is_gtp_lut_cell cell = true ↔
      ((∃ ds : List Char, cell = "GTP_LUT".toList ++ ds ∧ ds ≠ [] ∧ ds.all isDigitC = true) ∧
        cell ≠ "GTP_LUT6CARRY".toList)) ∧
    is_gtp_lut_cell "GTP_LUT6".toList = true ∧
    is_gtp_lut_cell "GTP_LUT6CARRY".toList = false ∧
    is_gtp_lut_cell "GTP_LUTX".toList = false ∧
    is_gtp_lut_cell "GTP_LUT".toList = false := by
  refine ⟨?_, by decide, by decide, by decide, by decide⟩
  intro cell
  unfold is_gtp_lut_cell
  by_cases hcar : cell = "GTP_LUT6CARRY".toList
  · rw [if_pos hcar]
    simp [hcar]
  · rw [if_neg hcar]
    by_cases hpre : starts_with "GTP_LUT".toList cell = true
    · rw [if_pos hpre]
      obtain ⟨ds, hds⟩ := (starts_with_iff _ _).mp hpre
      subst hds
      have h7 : ("GTP_LUT".toList).length = 7 := by decide
      rw [← h7, List.drop_left]
      cases ds with
      | nil =>
        simp only [List.append_nil]
        constructor
        · intro h; exact absurd h (by simp)
        · rintro ⟨⟨ds', hds', hne, _⟩, _⟩
          have hds'' : ds' = [] := by simpa using hds'.symm
          exact absurd hds'' hne
      | cons d rest =>
        simp only [List.all_cons, Bool.and_eq_true]
        constructor
        · intro h
          refine ⟨⟨d :: rest, rfl, by simp, ?_⟩, hcar⟩
          simp [List.all_cons, h.1, h.2]
        · rintro ⟨⟨ds', hds', _, hall⟩, _⟩
          have hds'' : d :: rest = ds' := List.append_cancel_left hds'
          rw [← hds''] at hall
          simpa [List.all_cons] using hall
    · rw [if_neg hpre]
      constructor
      · intro h; exact absurd h (by simp)
      · rintro ⟨⟨ds, hds, _, _⟩, _⟩
        exact absurd ((starts_with_iff _ _).mpr ⟨ds, hds⟩) hpre

/-- C5 counterexample: the captured net of the qualifying port `.I0( )` is
whitespace-only, so it is NOT recorded into the input set even though the
port name passes the I-digits filter; the instance records only `x` from
`.I1(x)`.  This falsifies the claim's "if" direction (recorded if the port
qualifies). -/
theorem c5_counterexample :
    port_record ['I', '0'] = true ∧
    parse_luts_from_buffer "GTP_LUT6 u ( .I0( ), .I1(x) );".toList =
      [⟨['u'], [['x']]⟩] := by
  refine ⟨by decide, by decide⟩

/-- C5 amended: a captured net is recorded only if the port name is `I`
followed by one or more decimal digits (the record flag holds exactly for
such port names, and `I0` qualifies while `I`, `Z`, `ISO3` do not); a net
read under a qualifying port is then inserted after trimming, provided the
trimmed text is nonempty (a whitespace-only capture is dropped). -/
theorem c5_port_filter_amended :
    (∀ port : List Char, port_record port = true ↔
      ∃ ds : List Char, port = 'I' :: ds ∧ ds ≠ [] ∧ ds.all isDigitC = true) ∧
    port_record "I0".toList = true ∧
    port_record "I".toList = false ∧
    port_record "Z".toList = false ∧
    port_record "ISO3".toList = false ∧
    parse_luts_from_buffer "GTP_LUT6 u ( .I0(n1), .I(n2), .Z(n3), .ISO3(n4) );".toList =
      [⟨['u'], [['n', '1']]⟩] ∧
    (∀ (nets : List (List Char)) (net : List Char),
      trimC net = [] → lut_add_net_unique nets net = nets) := by
  refine ⟨port_record_iff, by decide, by decide, by decide, by decide, by decide, ?_⟩
  intro nets net h0
  simp [lut_add_net_unique, h0]

theorem c5_port_filter_amended_witness :
    lut_add_net_unique [['a']] [' '] = [['a']] :=
  c5_port_filter_amended.2.2.2.2.2.2 [['a']] [' '] (by decide)

/-- C6 counterexample: the input `GTP_LUT6 u1 ( .I0(a)` has a truncated
port list (the input ends before the list closes), yet the extractor DOES
produce the instance u1 with the nets collected so far — the C code stores
the Lut unconditionally after the port loop (src/main.c line 303). -/
theorem c6_counterexample :
    parse_luts_from_buffer "GTP_LUT6 u1 ( .I0(a)".toList = [⟨['u', '1'], [['a']]⟩] ∧
    parse_luts_from_buffer "GTP_LUT6 u1 ( .I0(a)".toList ≠ [] := by
  refine ⟨by decide, by decide⟩

/-- C6 amended: an instantiation with a missing instance name or with a
missing opening parenthesis after the name yields no Instance and scanning
resumes at the current cursor position; a truncated port list, however,
still yields an Instance carrying the nets captured before the end of the
input.  No error is reported in any case (extraction just returns a list). -/
theorem c6_malformed_amended :
    (∀ (fuel : Nat) (p p1 cell : List Char),
      parse_identifier p = some (cell, p1) → is_gtp_lut_cell cell = true →
      parse_identifier p1 = none →
      parse_loop (fuel + 1) p = parse_loop fuel p1) ∧
    (∀ (fuel : Nat) (p p1 p2 cell inst : List Char) (c : Char) (p4 : List Char),
      parse_identifier p = some (cell, p1) → is_gtp_lut_cell cell = true →
      parse_identifier p1 = some (inst, p2) → dropSpaces p2 = c :: p4 → c ≠ '(' →
      parse_loop (fuel + 1) p = parse_loop fuel (c :: p4)) ∧
    parse_luts_from_buffer "GTP_LUT6 ;".toList = [] ∧
    parse_luts_from_buffer "GTP_LUT6 u1 ;".toList = [] ∧
    parse_luts_from_buffer "GTP_LUT6 u1 ( .I0(a)".toList = [⟨['u', '1'], [['a']]⟩] := by
  refine ⟨?_, ?_, by decide, by decide, by decide⟩
  · intro fuel p p1 cell hpi hcell hpi2
    have hp : p ≠ [] := by
      intro hx; subst hx
      simp [parse_identifier, dropSpaces] at hpi
    rw [parse_loop, if_neg hp]
    simp [hpi, hcell, hpi2]
  · intro fuel p p1 p2 cell inst c p4 hpi hcell hpi2 hds hc
    have hp : p ≠ [] := by
      intro hx; subst hx
      simp [parse_identifier, dropSpaces] at hpi
    rw [parse_loop, if_neg hp]
    simp [hpi, hcell, hpi2, hds, hc]

theorem c6_malformed_amended_witness :
    parse_loop 9 "GTP_LUT6 ;".toList = parse_loop 8 " ;".toList :=
  c6_malformed_amended.1 8 "GTP_LUT6 ;".toList " ;".toList "GTP_LUT6".toList
    (by decide) (by decide) (by decide)

/-- C7 counterexample: for `GTP_LUT6 u ( ( .I0(a) ) .I1(b) )` the port list
DOES end at the first closing parenthesis seen at the top of the loop even
though the depth counter is still 2 there, so the only recorded input is
`a` and `.I1(b)` is never part of the instance. -/
theorem c7_counterexample :
    (parse_luts_from_buffer "GTP_LUT6 u ( ( .I0(a) ) .I1(b) )".toList).map Lut.nets =
      [[['a']]] ∧
    ['b'] ∉ ((parse_luts_from_buffer
      "GTP_LUT6 u ( ( .I0(a) ) .I1(b) )".toList).headD defaultLut).nets := by
  refine ⟨by decide, by decide⟩

/-- C7 amended: an opening parenthesis at the top of the port loop
increments the depth counter and a closing parenthesis decrements it, but
the loop then `break`s immediately, so the port list ends at the FIRST
closing parenthesis seen at the top of the loop regardless of the remaining
depth; for the claim's example the list ends after `.I0(a)` with depth
still 2 and the instance's inputs are exactly {a}. -/
theorem c7_depth_amended :
    (∀ (fuel depth : Nat) (nets : List (List Char)) (p rest : List Char),
      p ≠ [] → depth ≠ 0 → dropSpaces p = ')' :: rest →
      port_loop (fuel + 1) depth nets p = (nets, rest)) ∧
    port_loop 50 2 [['a']] " ) .I1(b) )".toList = ([['a']], " .I1(b) )".toList) ∧
    parse_luts_from_buffer "GTP_LUT6 u ( ( .I0(a) ) .I1(b) )".toList =
      [⟨['u'], [['a']]⟩] := by
  refine ⟨?_, by decide, by decide⟩
  intro fuel depth nets p rest hp hd hds
  rw [port_loop]
  have hstep : port_step depth nets p = .done nets rest := by
    unfold port_step
    rw [if_neg hp, if_neg hd, hds]
    simp
  rw [hstep]

theorem c7_depth_amended_witness :
    port_loop 1 2 [] [')', 'x'] = ([], ['x']) :=
  c7_depth_amended.1 0 2 [] [')', 'x'] ['x'] (by decide) (by decide) (by decide)

/-- C8: every extracted instance's input set is duplicate-free; each
recorded net is the captured text trimmed of surrounding whitespace
(every member is its own trim); inserting a net whose trimmed text is
already present leaves the set unchanged; and an insertion either leaves
the set unchanged or appends the trimmed net at the end, preserving the
insertion order of first occurrences. -/
theorem c8_nodup_trimmed :
    (∀ (buf : List Char) (l : Lut), l ∈ parse_luts_from_buffer buf → l.nets.Nodup) ∧
    (∀ (buf : List Char) (l : Lut), l ∈ parse_luts_from_buffer buf →
      ∀ x ∈ l.nets, trimC x = x) ∧
    (∀ (nets : List (List Char)) (net : List Char),
      trimC net ∈ nets → lut_add_net_unique nets net = nets) ∧
    (∀ (nets : List (List Char)) (net : List Char),
      lut_add_net_unique nets net = nets ∨
      lut_add_net_unique nets net = nets ++ [trimC net]) := by
  refine ⟨?_, ?_, ?_, ?_⟩
  · intro buf l h; exact (parse_luts_good buf l h).1
  · intro buf l h; exact (parse_luts_good buf l h).2
  · intro nets net hmem
    by_cases h0 : trimC net = []
    · simp [lut_add_net_unique, h0]
    · simp [lut_add_net_unique, h0, hmem]
  · intro nets net
    by_cases h0 : trimC net = []
    · left; simp [lut_add_net_unique, h0]
    · by_cases hmem : trimC net ∈ nets
      · left; simp [lut_add_net_unique, h0, hmem]
      · right; simp [lut_add_net_unique, h0, hmem]

theorem c8_nodup_trimmed_witness :
    (⟨['u'], [['a']]⟩ : Lut).nets.Nodup ∧
    trimC ['a'] = ['a'] ∧
    lut_add_net_unique [['a']] [' ', 'a'] = [['a']] :=
  ⟨c8_nodup_trimmed.1 "GTP_LUT6 u ( .I0(a) );".toList ⟨['u'], [['a']]⟩ (by decide),
   c8_nodup_trimmed.2.1 "GTP_LUT6 u ( .I0(a) );".toList ⟨['u'], [['a']]⟩ (by decide)
     ['a'] (by decide),
   c8_nodup_trimmed.2.2.1 [['a']] [' ', 'a'] (by decide)⟩

/-- C9: the members of the emitted pairs are pairwise distinct (no instance
appears in more than one pair, nor twice in one pair), the consumed-marks
list is duplicate-free (each instance is marked consumed at most once), and
an instance is marked consumed exactly when it is a member of some pair. -/
theorem c9_pair_membership (luts : List Lut) :
    (pairMembers (greedy_pairs luts)).Nodup ∧
    (final_consumed luts).Nodup ∧
    (∀ k, k ∈ final_consumed luts ↔ k ∈ pairMembers (greedy_pairs luts)) := by
  obtain ⟨h1, h2, h3, h4⟩ := pair_loop_invariant luts 0 [] List.nodup_nil
  refine ⟨h2, h1, ?_⟩
  intro k
  unfold final_consumed greedy_pairs
  rw [h4 k]
  simp

/-- C10: extraction terminates on every finite input: a successful
identifier parse consumes a nonempty token and strictly advances the
cursor, every iteration of the port-connection loop strictly advances the
cursor, the outer scan's result is independent of the fuel bound once it
exceeds the input length (each outer iteration advances at least one
character, a failed identifier parse advancing exactly one character past
the saved position by definition of `parse_loop`), and the fuel
`length + 1` used by `parse_luts_from_buffer` is therefore sufficient:
the function is a well-defined total function of the input text. -/
theorem c10_termination :
    (∀ (p tok rest : List Char), parse_identifier p = some (tok, rest) →
      tok ≠ [] ∧ rest.length < p.length) ∧
    (∀ (d : Nat) (nets : List (List Char)) (p : List Char) (d' : Nat)
      (nets' : List (List Char)) (p' : List Char),
      port_step d nets p = .next d' nets' p' → p'.length < p.length) ∧
    (∀ (f1 f2 : Nat) (p : List Char), p.length < f1 → p.length < f2 →
      parse_loop f1 p = parse_loop f2 p) ∧
    (∀ (buf : List Char) (fuel : Nat),
      (strip_line_comments (strip_block_comments buf)).length < fuel →
      parse_loop fuel (strip_line_comments (strip_block_comments buf)) =
        parse_luts_from_buffer buf) := by
  refine ⟨?_, ?_, parse_loop_fuel_eq, ?_⟩
  · intro p tok rest h; exact parse_identifier_some h
  · intro d nets p d' nets' p' h; exact port_step_next_length h
  · intro buf fuel h
    unfold parse_luts_from_buffer
    exact parse_loop_fuel_eq fuel _ _ h (Nat.lt_succ_self _)

theorem c10_termination_witness :
    (['a'] ≠ ([] : List Char) ∧ ([] : List Char).length < ['a'].length) ∧
    parse_loop 2 ['a'] = parse_loop 9 ['a'] :=
  ⟨c10_termination.1 ['a'] ['a'] [] (by decide),
   c10_termination.2.2.1 2 9 ['a'] (by decide) (by decide)⟩

